import Mathlib

/-!
Shallow embedding of the Ako key-value list manager.

The model follows `src/storage-manager.js`, `src/unnamed/part_001`
(`AkoStore`) and `src/unnamed/part_009` (`DragDropHandler`).  Persistence
(`chrome.storage.local`) is modelled by recording, for each operation, the
list snapshots passed to a (successful) `chrome.storage.local.set`; the
possibility of a failing `set` is an explicit `Bool` input.  Fresh
`Date.now()` identifiers and `new Date().toISOString()` timestamps are
explicit inputs as well, since they come from the environment.
-/

namespace Ako

/-- The whitespace class removed by JavaScript `String.prototype.trim`
(ASCII whitespace plus no-break space, BOM and the line/paragraph
separators; other exotic Unicode space separators are omitted from the
model, no claim depends on them). -/
def jsWhitespace (c : Char) : Bool :=
  c = ' ' || c = '\t' || c = '\n' || c = '\r' || c = '\x0b' || c = '\x0c' ||
  c = '\u00A0' || c = '\uFEFF' || c = '\u2028' || c = '\u2029'

/-- JavaScript `String.prototype.trim`: drop leading and trailing
whitespace. -/
def jsTrim (s : String) : String :=
  ⟨((s.data.dropWhile jsWhitespace).reverse.dropWhile jsWhitespace).reverse⟩

/-- An Ako item, `{id, key, value, createdAt}` (spec section 3, and the
object literal built in `AkoStore.addItem`, part_001 lines 600-605).
`createdAt` is modelled as an integer timestamp: the code only ever
compares `new Date(x) - new Date(y)`, i.e. millisecond values. -/
structure Item where
  id : String
  key : String
  value : String
  createdAt : Int
  deriving DecidableEq, Repr

/-- A JavaScript value as far as `loadItems` distinguishes them:
the code checks truthiness, `typeof data === 'object'` and
`Array.isArray(data)`.  Arrays of items and legacy id-to-item maps are the
two data-bearing shapes (spec section 6). -/
inductive JSValue where
  | jundef
  | jnull
  | jbool (b : Bool)
  | jnum (n : Int)
  | jstr (s : String)
  | jarr (items : List Item)
  | jobj (entries : List (String × Item))
  deriving DecidableEq, Repr

/-- JavaScript truthiness for the values above (`undefined`, `null`,
`false`, `0`, `""` are falsy). -/
def JSValue.truthy : JSValue → Bool
  | .jundef => false
  | .jnull => false
  | .jbool b => b
  | .jnum n => n != 0
  | .jstr s => s != ""
  | .jarr _ => true
  | .jobj _ => true

/-- `typeof v === 'object'` (true for `null`, arrays and plain objects). -/
def JSValue.typeofObject : JSValue → Bool
  | .jnull => true
  | .jarr _ => true
  | .jobj _ => true
  | _ => false

/-- `Array.isArray v`. -/
def JSValue.isArray : JSValue → Bool
  | .jarr _ => true
  | _ => false

/-- `Object.values(data).sort((a, b) => new Date(b.createdAt) - new Date(a.createdAt))`
(storage-manager.js line 20 / part_001 line 175).  JavaScript
`Array.prototype.sort` is stable and, for a consistent comparator, its
result is the unique stable order for the preorder
"`a` may stay before `b` iff `b.createdAt - a.createdAt <= 0`", so any
stable sort for that preorder is an exact model; we use Mathlib's stable
insertion sort. -/
def sortByCreatedAtDesc (l : List Item) : List Item :=
  l.insertionSort (fun a b => b.createdAt ≤ a.createdAt)

/-- Which branch of the `loadItems` if/else-if/else chain ran. -/
inductive LoadBranch where
  | migrated
  | arrayLoaded
  | emptyInit
  deriving DecidableEq, Repr

/-- Result of `loadItems`: the returned list, the snapshots written back to
storage (one write happens during migration, via `saveItems`), and the
branch taken. -/
structure LoadResult where
  items : List Item
  writes : List (List Item)
  branch : LoadBranch
  deriving DecidableEq, Repr

/-- `StorageManager.loadItems` (storage-manager.js lines 7-44), identical
logic in `AkoStore.loadItems` (part_001 lines 163-199), on the healthy
path (the storage read and write succeed).

`const data = result[CONSTANTS.STORAGE_KEY] || {}` coerces every falsy
stored value to `{}`; then
`if (data && typeof data === 'object' && !Array.isArray(data))` migrates,
`else if (Array.isArray(data))` loads the array, `else` initializes `[]`
without writing.  After the `|| {}` coercion `data` is always truthy, so
the first branch fires exactly on plain objects. -/
def loadItems (stored : JSValue) : LoadResult :=
  let data := if stored.truthy then stored else .jobj []
  match data with
  | .jobj entries =>
      let items := sortByCreatedAtDesc (entries.map Prod.snd)
      ⟨items, [items], .migrated⟩
  | .jarr items => ⟨items, [], .arrayLoaded⟩
  | _ => ⟨[], [], .emptyInit⟩

/-- Outcome of `AkoStore.addItem` as observable from its feedback
messages and control flow. -/
inductive AddOutcome where
  | added
  | rejectedEmpty
  | rejectedDuplicate
  | saveFailed
  deriving DecidableEq, Repr

/-- Result of `addItem`: the in-memory list afterwards, the arguments of
each attempted `saveItems` call, and the outcome. -/
structure AddResult where
  items : List Item
  saveAttempts : List (List Item)
  outcome : AddOutcome
  deriving DecidableEq, Repr

/-- `AkoStore.addItem` (part_001 lines 579-635).
`key`/`value` are the trimmed input field contents; `newId` stands for
`Date.now().toString()` and `now` for the `createdAt` timestamp; `saveOk`
says whether `chrome.storage.local.set` succeeds.
Validation: reject if either trimmed field is empty (line 586), then
reject if `this.items.findIndex(item => item.key === key) !== -1`
(lines 593-598).  Otherwise `this.items.unshift(newItem)` prepends, and on
a save failure the catch block runs `this.items.shift()`, undoing the
prepend (line 633). -/
def addItem (items : List Item) (rawKey rawValue : String)
    (newId : String) (now : Int) (saveOk : Bool) : AddResult :=
  let key := jsTrim rawKey
  let value := jsTrim rawValue
  if key = "" ∨ value = "" then
    ⟨items, [], .rejectedEmpty⟩
  else if items.any (fun item => item.key == key) then
    ⟨items, [], .rejectedDuplicate⟩
  else
    let newItem : Item := ⟨newId, key, value, now⟩
    let optimistic := newItem :: items
    if saveOk then
      ⟨optimistic, [optimistic], .added⟩
    else
      ⟨items, [optimistic], .saveFailed⟩

/-- Replace the fields of the item at `index` (the in-place mutation
`this.items[index].key = newKey; this.items[index].value = newValue` of
`AkoStore.saveEdit`, part_001 lines 842-843).  Out-of-range indices leave
the list unchanged (the handlers validate the index against the DOM). -/
def editAt : List Item → Nat → String → String → List Item
  | [], _, _, _ => []
  | item :: rest, 0, k, v => { item with key := k, value := v } :: rest
  | item :: rest, n + 1, k, v => item :: editAt rest n k v

/-- `AkoStore.saveEdit` (part_001 lines 823-850): trim both inputs,
reject silently if either is empty, otherwise mutate the item in place
and persist.  Returns the list and the persisted snapshots. -/
def saveEdit (items : List Item) (index : Nat) (rawKey rawValue : String) :
    List Item × List (List Item) :=
  let newKey := jsTrim rawKey
  let newValue := jsTrim rawValue
  if newKey = "" ∨ newValue = "" then
    (items, [])
  else
    let updated := editAt items index newKey newValue
    (updated, [updated])

/-- `AkoStore.confirmDelete` (part_001 lines 896-900):
`this.items.splice(index, 1)` then persist. -/
def confirmDelete (items : List Item) (index : Nat) :
    List Item × List (List Item) :=
  let updated := items.eraseIdx index
  (updated, [updated])

/-- JavaScript `arr.splice(n, 0, a)`: insert `a` at position `n`
(clamped to the length). -/
def jsSpliceInsert (l : List Item) (n : Nat) (a : Item) : List Item :=
  l.take n ++ a :: l.drop n

/-- The target index computed by `AkoStore.completeDrag`
(part_001 lines 502-513): `this.items.length - 1` when no element lies
below the pointer, otherwise the raw dataset index of `afterElement`,
decremented when `this.draggedIndex < newIndex`.  Computed in `Int`
because `items.length - 1` can be `-1` in JavaScript. -/
def computeNewIndex (items : List Item) (draggedIndex : Nat)
    (afterIdx : Option Nat) : Int :=
  match afterIdx with
  | none => (items.length : Int) - 1
  | some raw => if draggedIndex < raw then (raw : Int) - 1 else (raw : Int)

/-- The list mutation and persistence of `AkoStore.completeDrag`
(part_001 lines 496-538), identical logic in `DragDropHandler.completeDrag`
(part_009 lines 135-174).  `afterIdx` is the `dataset.index` of the
element returned by `getDragAfterElement` (`none` when it returns
`undefined`).  Guard: `if (newIndex !== this.draggedIndex && newIndex >= 0)`;
then `const movedItem = this.items.splice(this.draggedIndex, 1)[0];
this.items.splice(newIndex, 0, movedItem)` and a save.
`handleMouseDown` (part_001 lines 389-392) validates
`0 <= draggedIndex < items.length`, so the item lookup always succeeds on
real drags; on an out-of-range index the model leaves the list unchanged. -/
def completeDrag (items : List Item) (draggedIndex : Nat)
    (afterIdx : Option Nat) : List Item × List (List Item) :=
  let newIndex := computeNewIndex items draggedIndex afterIdx
  if newIndex ≠ (draggedIndex : Int) ∧ 0 ≤ newIndex then
    match items[draggedIndex]? with
    | some movedItem =>
        let moved := jsSpliceInsert (items.eraseIdx draggedIndex)
          newIndex.toNat movedItem
        (moved, [moved])
    | none => (items, [])
  else
    (items, [])

/-- `moveItem(fromIndex, toIndex)` as the spec describes it
(spec section 4.2): extract the item at `fromIndex`, then insert it at
`toIndex` taken relative to the list with the source already removed. -/
def moveItem (l : List Item) (fromIdx toIdx : Nat) : List Item :=
  match l[fromIdx]? with
  | some item => jsSpliceInsert (l.eraseIdx fromIdx) toIdx item
  | none => l

/-- The geometry of one rendered row: `getBoundingClientRect().top` and
`.height`, in CSS pixels (rationals, since they may be fractional). -/
structure Row where
  top : ℚ
  height : ℚ
  deriving DecidableEq, Repr

/-- The vertical midpoint `box.top + box.height / 2` of a row. -/
def rowMid (r : Row) : ℚ := r.top + r.height / 2

/-- `offset = y - box.top - box.height / 2` (part_001 line 467):
the signed distance from the pointer down to the row midpoint. -/
def offsetAt (y : ℚ) (child : Row) : ℚ := y - child.top - child.height / 2

/-- One step of the `reduce` inside `getDragAfterElement`
(part_001 lines 465-474 / part_009 lines 122-131): keep the child when
`offset < 0 && offset > closest.offset`.  The accumulator starts at
`{ offset: Number.NEGATIVE_INFINITY }` with no element, modelled as
`none`. -/
def gdaeStep (y : ℚ) (closest : Option (ℚ × Row)) (child : Row) :
    Option (ℚ × Row) :=
  match closest with
  | none =>
      if offsetAt y child < 0 then some (offsetAt y child, child) else none
  | some (o, c) =>
      if offsetAt y child < 0 ∧ o < offsetAt y child then
        some (offsetAt y child, child)
      else
        some (o, c)

/-- `AkoStore.getDragAfterElement` (part_001 lines 462-475), identical in
`DragDropHandler.getDragAfterElement` (part_009 lines 119-132).  `rows`
are the geometries of `container.querySelectorAll('.item:not(.dragging)')`
in document order, i.e. every row except the dragged one.  Returns the
row the drop lands before, or `none` for "insert at the end". -/
def getDragAfterElement (y : ℚ) (rows : List Row) : Option Row :=
  (rows.foldl (gdaeStep y) none).map Prod.snd

/-- `CONSTANTS.DRAG_THRESHOLD` (part_001 line 4). -/
def DRAG_THRESHOLD : ℚ := 5

/-- The drag-confirmation logic of `AkoStore.handleMouseMove`
(part_001 lines 401-420), identical in `DragDropHandler.handleMouseMove`
(part_009 lines 49-65), for an armed session (`draggedElement` set):
returns the new `isDragging` flag.  The code computes
`deltaY = Math.abs(e.clientY - this.mouseDownY)` and returns early while
`deltaY < CONSTANTS.DRAG_THRESHOLD`; `clientX` is received but never
read by the threshold check. -/
def handleMouseMove (isDragging : Bool) (mouseDownY clientX clientY : ℚ) :
    Bool :=
  if isDragging then true
  else if |clientY - mouseDownY| < DRAG_THRESHOLD then false
  else true

/-- No two items share a key (spec section 3 invariant). -/
def keysNodup (l : List Item) : Prop := (l.map Item.key).Nodup

instance keysNodupDecidable (l : List Item) : Decidable (keysNodup l) := by
  unfold keysNodup
  infer_instance

/-- Concrete items used in the examples below. -/
def itemA : Item := ⟨"ida", "A", "va", 10⟩

def itemB : Item := ⟨"idb", "B", "vb", 20⟩

def itemC : Item := ⟨"idc", "C", "vc", 30⟩

/-! ## Helper lemmas -/

/-- Inserting via `splice(n, 0, a)` is, up to permutation, a `cons`. -/
theorem jsSpliceInsert_perm (l : List Item) (n : Nat) (a : Item) :
    (jsSpliceInsert l n a).Perm (a :: l) := by
  unfold jsSpliceInsert
  have h1 : (l.take n ++ a :: l.drop n).Perm (a :: (l.take n ++ l.drop n)) :=
    List.perm_middle
  rwa [List.take_append_drop] at h1

/-- Putting the extracted element back in front of `splice(i, 1)` is a
permutation of the original list. -/
theorem cons_eraseIdx_perm :
    ∀ (l : List Item) (i : Nat) (a : Item), l[i]? = some a →
      (a :: l.eraseIdx i).Perm l
  | [], i, a => by simp
  | b :: l, 0, a => by
      intro h
      simp only [List.getElem?_cons_zero, Option.some.injEq] at h
      subst h
      simp
  | b :: l, i + 1, a => by
      intro h
      simp only [List.getElem?_cons_succ] at h
      have ih := cons_eraseIdx_perm l i a h
      have h2 : (a :: b :: l.eraseIdx i).Perm (b :: a :: l.eraseIdx i) :=
        List.Perm.swap b a _
      simpa only [List.eraseIdx_cons_succ] using h2.trans (ih.cons b)

/-- The list produced by `completeDrag` is a permutation of the input
list (identity of the items is preserved, spec section 3). -/
theorem completeDrag_perm (items : List Item) (src : Nat)
    (afterIdx : Option Nat) : ((completeDrag items src afterIdx).1).Perm items := by
  simp only [completeDrag]
  split
  · split
    · next a hget =>
        exact (jsSpliceInsert_perm _ _ _).trans (cons_eraseIdx_perm items src a hget)
    · exact List.Perm.refl _
  · exact List.Perm.refl _

/-- Every key of `editAt l i k v` is either the new key `k` or a key of
some item other than the edited one. -/
theorem mem_keys_editAt :
    ∀ (l : List Item) (i : Nat) (k v s : String),
      s ∈ (editAt l i k v).map Item.key →
      s = k ∨ s ∈ (l.eraseIdx i).map Item.key
  | [], i, k, v, s => by simp [editAt]
  | b :: l, 0, k, v, s => by
      intro h
      simp only [editAt, List.map_cons, List.mem_cons] at h
      simpa only [List.eraseIdx_cons_zero] using h
  | b :: l, i + 1, k, v, s => by
      intro h
      simp only [editAt, List.map_cons, List.mem_cons] at h
      rcases h with h | h
      · right
        simp only [List.eraseIdx_cons_succ, List.map_cons, List.mem_cons]
        exact Or.inl h
      · rcases mem_keys_editAt l i k v s h with h1 | h1
        · exact Or.inl h1
        · right
          simp only [List.eraseIdx_cons_succ, List.map_cons, List.mem_cons]
          exact Or.inr h1

/-- Editing item `i` keeps the keys duplicate-free as long as the new key
does not collide with any other item. -/
theorem keysNodup_editAt :
    ∀ (l : List Item) (i : Nat) (k v : String),
      keysNodup l → k ∉ (l.eraseIdx i).map Item.key →
      keysNodup (editAt l i k v)
  | [], _, _, _ => by intro _ _; simp [editAt, keysNodup]
  | b :: l, 0, k, v => by
      intro hn hk
      simp only [List.eraseIdx_cons_zero] at hk
      simp only [keysNodup, editAt, List.map_cons, List.nodup_cons] at hn ⊢
      exact ⟨hk, hn.2⟩
  | b :: l, i + 1, k, v => by
      intro hn hk
      simp only [List.eraseIdx_cons_succ, List.map_cons, List.mem_cons,
        not_or] at hk
      simp only [keysNodup, editAt, List.map_cons, List.nodup_cons] at hn ⊢
      obtain ⟨hbk, hnl⟩ := hn
      obtain ⟨hkb, hkrest⟩ := hk
      refine ⟨?_, keysNodup_editAt l i k v hnl hkrest⟩
      intro hmem
      rcases mem_keys_editAt l i k v b.key hmem with h1 | h1
      · exact hkb h1.symm
      · exact hbk (((List.eraseIdx_sublist l i).map Item.key).subset h1)

/-- The fold in `getDragAfterElement` yields no element exactly when no
candidate row has a strictly negative offset (and the accumulator holds
none either). -/
theorem gdae_foldl_none_iff (y : ℚ) :
    ∀ (rows : List Row) (acc : Option (ℚ × Row)),
      rows.foldl (gdaeStep y) acc = none ↔
        acc = none ∧ ∀ r ∈ rows, ¬ offsetAt y r < 0
  | [], acc => by simp
  | r :: rows, acc => by
      rw [List.foldl_cons, gdae_foldl_none_iff y rows (gdaeStep y acc r)]
      constructor
      · rintro ⟨hstep, hrest⟩
        cases acc with
        | none =>
            by_cases hoff : offsetAt y r < 0
            · simp [gdaeStep, hoff] at hstep
            · refine ⟨rfl, ?_⟩
              intro r2 h2
              rcases List.mem_cons.mp h2 with rfl | h3
              · exact hoff
              · exact hrest r2 h3
        | some p =>
            obtain ⟨o0, c0⟩ := p
            simp only [gdaeStep] at hstep
            split at hstep <;> simp_all
      · rintro ⟨rfl, hall⟩
        have hoff : ¬ offsetAt y r < 0 := hall r (List.mem_cons_self r rows)
        refine ⟨by simp [gdaeStep, hoff], ?_⟩
        intro r2 h2
        exact hall r2 (List.mem_cons_of_mem r h2)

/-- Along the fold, the accumulated offset only grows, and it bounds the
offset of every candidate row seen so far. -/
theorem gdae_foldl_bound (y : ℚ) :
    ∀ (rows : List Row) (acc : Option (ℚ × Row)) (o : ℚ) (c : Row),
      rows.foldl (gdaeStep y) acc = some (o, c) →
      (∀ o0 c0, acc = some (o0, c0) → o0 ≤ o) ∧
      (∀ r ∈ rows, offsetAt y r < 0 → offsetAt y r ≤ o)
  | [], acc, o, c => by
      intro h
      simp only [List.foldl_nil] at h
      subst h
      exact ⟨fun o0 c0 h0 => by simp_all, by simp⟩
  | r :: rows, acc, o, c => by
      intro h
      rw [List.foldl_cons] at h
      obtain ⟨hacc, hrest⟩ := gdae_foldl_bound y rows (gdaeStep y acc r) o c h
      have hstep : ∀ o0 c0, acc = some (o0, c0) → o0 ≤ o := by
        intro o0 c0 h0
        subst h0
        by_cases hcond : offsetAt y r < 0 ∧ o0 < offsetAt y r
        · have h1 : gdaeStep y (some (o0, c0)) r = some (offsetAt y r, r) := by
            simp only [gdaeStep]
            rw [if_pos hcond]
          exact le_of_lt (lt_of_lt_of_le hcond.2 (hacc _ _ h1))
        · have h1 : gdaeStep y (some (o0, c0)) r = some (o0, c0) := by
            simp only [gdaeStep]
            rw [if_neg hcond]
          exact hacc _ _ h1
      refine ⟨hstep, ?_⟩
      intro r2 hmem hneg
      rcases List.mem_cons.mp hmem with rfl | hmem2
      · cases hacc2 : acc with
        | none =>
            exact hacc (offsetAt y r2) r2
              (by rw [hacc2]; simp only [gdaeStep]; rw [if_pos hneg])
        | some p =>
            obtain ⟨o0, c0⟩ := p
            by_cases hcond : offsetAt y r2 < 0 ∧ o0 < offsetAt y r2
            · exact hacc (offsetAt y r2) r2
                (by rw [hacc2]; simp only [gdaeStep]; rw [if_pos hcond])
            · have hle : offsetAt y r2 ≤ o0 := by
                rcases not_and_or.mp hcond with h1 | h1
                · exact absurd hneg h1
                · exact le_of_not_lt h1
              exact hle.trans (hstep o0 c0 hacc2)
      · exact hrest r2 hmem2 hneg

/-- A `some` result of the fold is either the initial accumulator or a
candidate row of the list, carrying its own (negative) offset. -/
theorem gdae_foldl_origin (y : ℚ) :
    ∀ (rows : List Row) (acc : Option (ℚ × Row)) (o : ℚ) (c : Row),
      rows.foldl (gdaeStep y) acc = some (o, c) →
      acc = some (o, c) ∨ (c ∈ rows ∧ o = offsetAt y c ∧ o < 0)
  | [], acc, o, c => by
      intro h
      simp only [List.foldl_nil] at h
      exact Or.inl h
  | r :: rows, acc, o, c => by
      intro h
      rw [List.foldl_cons] at h
      rcases gdae_foldl_origin y rows (gdaeStep y acc r) o c h with h1 | h1
      · cases hacc : acc with
        | none =>
            rw [hacc] at h1
            simp only [gdaeStep] at h1
            split at h1
            · next hoff =>
                simp only [Option.some.injEq, Prod.mk.injEq] at h1
                obtain ⟨rfl, rfl⟩ := h1
                exact Or.inr ⟨List.mem_cons_self r rows, rfl, hoff⟩
            · simp at h1
        | some p =>
            obtain ⟨o0, c0⟩ := p
            rw [hacc] at h1
            simp only [gdaeStep] at h1
            split at h1
            · next hcond =>
                simp only [Option.some.injEq, Prod.mk.injEq] at h1
                obtain ⟨rfl, rfl⟩ := h1
                exact Or.inr ⟨List.mem_cons_self r rows, rfl, hcond.1⟩
            · simp only [Option.some.injEq, Prod.mk.injEq] at h1
              obtain ⟨rfl, rfl⟩ := h1
              exact Or.inl rfl
      · exact Or.inr ⟨List.mem_cons_of_mem r h1.1, h1.2.1, h1.2.2⟩

/-- The offset of a row is the pointer height minus the row midpoint. -/
theorem offsetAt_eq (y : ℚ) (r : Row) : offsetAt y r = y - rowMid r := by
  unfold offsetAt rowMid
  ring

/-- A negative offset says exactly that the pointer is above the row
midpoint. -/
theorem offsetAt_neg_iff (y : ℚ) (r : Row) :
    offsetAt y r < 0 ↔ y < rowMid r := by
  rw [offsetAt_eq]
  constructor <;> intro h <;> linarith

/-- `findIndex(item => item.key === key) !== -1` is key membership. -/
theorem any_key_eq_iff (items : List Item) (k : String) :
    (items.any (fun item => item.key == k)) = true ↔ k ∈ items.map Item.key := by
  rw [List.any_eq_true]
  constructor
  · rintro ⟨item, hmem, hbeq⟩
    exact List.mem_map.mpr ⟨item, hmem, beq_iff_eq.mp hbeq⟩
  · intro h
    obtain ⟨item, hmem, hkey⟩ := List.mem_map.mp h
    exact ⟨item, hmem, beq_iff_eq.mpr hkey⟩

/-! ## Claims -/

/-- C2: for every persisted legacy map (non-array object), `load()`
returns its items sorted by `createdAt` descending and immediately
persists the list form; loading the resulting array value returns the
same list, takes the array branch, and writes nothing. -/
theorem loadItems_migrates_legacy_map (entries : List (String × Item)) :
    loadItems (.jobj entries) =
      ⟨sortByCreatedAtDesc (entries.map Prod.snd),
        [sortByCreatedAtDesc (entries.map Prod.snd)], .migrated⟩ ∧
    loadItems (.jarr (sortByCreatedAtDesc (entries.map Prod.snd))) =
      ⟨sortByCreatedAtDesc (entries.map Prod.snd), [], .arrayLoaded⟩ ∧
    (sortByCreatedAtDesc (entries.map Prod.snd)).Perm (entries.map Prod.snd) ∧
    (sortByCreatedAtDesc (entries.map Prod.snd)).Pairwise
      (fun a b => b.createdAt ≤ a.createdAt) := by
  refine ⟨rfl, rfl, List.perm_insertionSort _ _, ?_⟩
  haveI : IsTotal Item (fun a b => b.createdAt ≤ a.createdAt) :=
    ⟨fun a b => le_total b.createdAt a.createdAt⟩
  haveI : IsTrans Item (fun a b => b.createdAt ≤ a.createdAt) :=
    ⟨fun _ _ _ hab hbc => le_trans hbc hab⟩
  exact List.sorted_insertionSort _ _

/-- C9: an absent stored value is coerced to `{}` by `|| {}`, takes the
migration branch, returns the empty list and writes the empty array;
the no-write `else` branch is reached exactly for truthy non-objects
(`true`, a non-zero number, a non-empty string). -/
theorem loadItems_absent_is_migrated :
    loadItems .jundef = ⟨[], [[]], .migrated⟩ ∧
    (∀ v : JSValue, (loadItems v).branch = .emptyInit ↔
      (v = .jbool true ∨ (∃ n : Int, n ≠ 0 ∧ v = .jnum n) ∨
        (∃ s : String, s ≠ "" ∧ v = .jstr s))) := by
  refine ⟨rfl, ?_⟩
  intro v
  cases v with
  | jundef => simp [loadItems, JSValue.truthy]
  | jnull => simp [loadItems, JSValue.truthy]
  | jbool b => cases b <;> simp [loadItems, JSValue.truthy]
  | jnum n =>
      by_cases h : n = 0 <;> simp [loadItems, JSValue.truthy, h]
  | jstr s =>
      by_cases h : s = "" <;> simp [loadItems, JSValue.truthy, h]
  | jarr l => simp [loadItems, JSValue.truthy]
  | jobj m => simp [loadItems, JSValue.truthy]

/-- C8: whenever the computed target index equals the drag source index,
`completeDrag` leaves the list unchanged and makes no persistence call. -/
theorem completeDrag_noop_when_target_eq_source (items : List Item)
    (src : Nat) (afterIdx : Option Nat)
    (h : computeNewIndex items src afterIdx = (src : Int)) :
    completeDrag items src afterIdx = (items, []) := by
  simp only [completeDrag, h]
  simp

/-- Witness for C8: dropping item 1 of a three-item list just below its
own slot computes target 1 and is a complete no-op. -/
theorem completeDrag_noop_when_target_eq_source_witness :
    completeDrag [itemA, itemB, itemC] 1 (some 2) = ([itemA, itemB, itemC], []) :=
  completeDrag_noop_when_target_eq_source [itemA, itemB, itemC] 1 (some 2)
    (by decide)

/-- C10: with an armed (not yet dragging) session, `handleMouseMove`
confirms the drag exactly when the absolute vertical displacement reaches
`DRAG_THRESHOLD` (5 px); the horizontal coordinate never influences the
outcome, and a purely horizontal move never confirms. -/
theorem handleMouseMove_vertical_threshold :
    (∀ mouseDownY clientX clientY : ℚ,
        handleMouseMove false mouseDownY clientX clientY = true ↔
          DRAG_THRESHOLD ≤ |clientY - mouseDownY|) ∧
    (∀ mouseDownY x1 x2 clientY : ℚ,
        handleMouseMove false mouseDownY x1 clientY =
          handleMouseMove false mouseDownY x2 clientY) ∧
    (∀ mouseDownY clientX : ℚ,
        handleMouseMove false mouseDownY clientX mouseDownY = false) := by
  refine ⟨?_, ?_, ?_⟩
  · intro dy cx cy
    by_cases h : |cy - dy| < DRAG_THRESHOLD
    · simp [handleMouseMove, h, not_le.mpr h]
    · simp [handleMouseMove, h, not_lt.mp h]
  · intro dy x1 x2 cy
    rfl
  · intro dy cx
    norm_num [handleMouseMove, DRAG_THRESHOLD]

/-- C4: a valid add (both trimmed fields non-empty, trimmed key fresh)
prepends the freshly built item: the result is exactly the new item
consed onto the old list, so the length grows by one, the new item sits
at index 0, and every existing item keeps its relative order. -/
theorem addItem_prepends_fresh_key (items : List Item)
    (rawKey rawValue newId : String) (now : Int)
    (hk : jsTrim rawKey ≠ "") (hv : jsTrim rawValue ≠ "")
    (hfresh : jsTrim rawKey ∉ items.map Item.key) :
    (addItem items rawKey rawValue newId now true).items =
      (⟨newId, jsTrim rawKey, jsTrim rawValue, now⟩ : Item) :: items ∧
    (addItem items rawKey rawValue newId now true).items.length =
      items.length + 1 ∧
    (addItem items rawKey rawValue newId now true).outcome = .added := by
  have hany : ¬ (items.any (fun item => item.key == jsTrim rawKey)) = true :=
    fun h => hfresh ((any_key_eq_iff items (jsTrim rawKey)).mp h)
  simp only [addItem]
  rw [if_neg (not_or.mpr ⟨hk, hv⟩), if_neg hany]
  simp

/-- Witness for C4: adding key "B" (fresh) with a padded value to a
one-item list prepends the trimmed item. -/
theorem addItem_prepends_fresh_key_witness :
    (addItem [itemA] "B" " vb " "id9" 99 true).items =
      (⟨"id9", jsTrim "B", jsTrim " vb ", 99⟩ : Item) :: [itemA] ∧
    (addItem [itemA] "B" " vb " "id9" 99 true).items.length =
      [itemA].length + 1 ∧
    (addItem [itemA] "B" " vb " "id9" 99 true).outcome = .added :=
  addItem_prepends_fresh_key [itemA] "B" " vb " "id9" 99
    (by decide) (by decide) (by decide)

/-- C5 counterexample: with an existing item of key "a", input key "a"
and a blank value, the trimmed key equals an existing key and the add is
rejected without mutation or persistence, but the rejection reported is
the empty-field one, not the duplicate-key one the claim requires. -/
theorem addItem_duplicate_with_blank_value_counterexample :
    jsTrim "a" ∈ ([⟨"1", "a", "x", 0⟩] : List Item).map Item.key ∧
    addItem [⟨"1", "a", "x", 0⟩] "a" " " "2" 1 true =
      ⟨[⟨"1", "a", "x", 0⟩], [], .rejectedEmpty⟩ ∧
    (addItem [⟨"1", "a", "x", 0⟩] "a" " " "2" 1 true).outcome ≠
      .rejectedDuplicate := by
  decide

/-- C5 (amended): when additionally both trimmed fields are non-empty, an
add whose trimmed key equals an existing item's key (exact, case
sensitive) leaves the list unchanged, attempts no persistence call, and
reports the duplicate-key rejection — for any persistence outcome. -/
theorem addItem_duplicate_key_rejected (items : List Item)
    (rawKey rawValue newId : String) (now : Int) (saveOk : Bool)
    (hk : jsTrim rawKey ≠ "") (hv : jsTrim rawValue ≠ "")
    (hdup : jsTrim rawKey ∈ items.map Item.key) :
    addItem items rawKey rawValue newId now saveOk =
      ⟨items, [], .rejectedDuplicate⟩ := by
  have hany : (items.any (fun item => item.key == jsTrim rawKey)) = true :=
    (any_key_eq_iff items (jsTrim rawKey)).mpr hdup
  simp only [addItem]
  rw [if_neg (not_or.mpr ⟨hk, hv⟩), if_pos hany]

/-- Witness for C5: adding key " A " (trimming to the existing "A") is
rejected as a duplicate with no change and no save attempt. -/
theorem addItem_duplicate_key_rejected_witness :
    addItem [itemA] " A " "zz" "id9" 99 true =
      ⟨[itemA], [], .rejectedDuplicate⟩ :=
  addItem_duplicate_key_rejected [itemA] " A " "zz" "id9" 99 true
    (by decide) (by decide) (by decide)

/-- C6: when the persistence step fails on an otherwise valid add, the
optimistic prepend is rolled back (`this.items.shift()`): the in-memory
list equals the pre-add list, the single failed save attempt carried the
optimistic list, and the failure is surfaced as the save-failed outcome. -/
theorem addItem_rollback_on_save_failure (items : List Item)
    (rawKey rawValue newId : String) (now : Int)
    (hk : jsTrim rawKey ≠ "") (hv : jsTrim rawValue ≠ "")
    (hfresh : jsTrim rawKey ∉ items.map Item.key) :
    addItem items rawKey rawValue newId now false =
      ⟨items,
        [(⟨newId, jsTrim rawKey, jsTrim rawValue, now⟩ : Item) :: items],
        .saveFailed⟩ := by
  have hany : ¬ (items.any (fun item => item.key == jsTrim rawKey)) = true :=
    fun h => hfresh ((any_key_eq_iff items (jsTrim rawKey)).mp h)
  simp only [addItem]
  rw [if_neg (not_or.mpr ⟨hk, hv⟩), if_neg hany]
  simp

/-- Witness for C6: a failing save on a valid add of key "B" leaves the
one-item list unchanged and reports the failure. -/
theorem addItem_rollback_on_save_failure_witness :
    addItem [itemA] "B" "vb" "id9" 99 false =
      ⟨[itemA],
        [(⟨"id9", jsTrim "B", jsTrim "vb", 99⟩ : Item) :: [itemA]],
        .saveFailed⟩ :=
  addItem_rollback_on_save_failure [itemA] "B" "vb" "id9" 99
    (by decide) (by decide) (by decide)

/-- C3 counterexample: from the reachable two-item state built by two
valid adds, editing item 0 to the other item's key is accepted silently
and produces two items with equal keys — the uniqueness invariant is not
preserved by edit when the new key equals another item's key. -/
theorem saveEdit_can_break_key_uniqueness :
    keysNodup
      (addItem (addItem [] "b" "y" "1" 10 true).items "a" "x" "2" 20
        true).items ∧
    ¬ keysNodup
      (saveEdit
        (addItem (addItem [] "b" "y" "1" 10 true).items "a" "x" "2" 20
          true).items 0 "b" "z").1 := by
  decide

/-- C3 (amended): the no-duplicate-keys invariant is preserved by add,
delete and reorder unconditionally, and by edit precisely under the extra
assumption that the new trimmed key does not equal any other item's key;
without that assumption edit can violate it (see the counterexample). -/
theorem key_uniqueness_preserved (items : List Item) :
    (∀ (rawKey rawValue newId : String) (now : Int) (saveOk : Bool),
      keysNodup items →
      keysNodup (addItem items rawKey rawValue newId now saveOk).items) ∧
    (∀ index : Nat, keysNodup items →
      keysNodup (confirmDelete items index).1) ∧
    (∀ (src : Nat) (afterIdx : Option Nat), keysNodup items →
      keysNodup (completeDrag items src afterIdx).1) ∧
    (∀ (index : Nat) (rawKey rawValue : String), keysNodup items →
      jsTrim rawKey ∉ (items.eraseIdx index).map Item.key →
      keysNodup (saveEdit items index rawKey rawValue).1) := by
  refine ⟨?_, ?_, ?_, ?_⟩
  · intro rk rv id t ok hn
    simp only [addItem]
    split
    · exact hn
    · split
      · exact hn
      · next h1 h2 =>
          split
          · simp only [keysNodup, List.map_cons, List.nodup_cons]
            exact ⟨fun hmem => h2 ((any_key_eq_iff items _).mpr hmem), hn⟩
          · exact hn
  · intro index hn
    simp only [confirmDelete, keysNodup] at hn ⊢
    exact List.Nodup.sublist ((List.eraseIdx_sublist items index).map Item.key) hn
  · intro src afterIdx hn
    have hp := (completeDrag_perm items src afterIdx).map Item.key
    exact hp.symm.nodup hn
  · intro index rk rv hn hcol
    simp only [saveEdit]
    split
    · exact hn
    · exact keysNodup_editAt items index (jsTrim rk) (jsTrim rv) hn hcol

/-- Witness for C3: editing item 0 of a two-item list to the fresh key
"Z" keeps the keys duplicate-free. -/
theorem key_uniqueness_preserved_witness :
    keysNodup (saveEdit [itemA, itemB] 0 "Z" "w").1 :=
  (key_uniqueness_preserved [itemA, itemB]).2.2.2 0 "Z" "w"
    (by decide) (by decide)

/-- C1: a completed drag is remove-then-insert where the insertion index
is taken relative to the list with the source already removed — the raw
target index is decremented exactly when the source index is smaller —
and a drop past the last row targets the final position.  In particular,
on `[A, B, C]`, dragging index 0 to after the item at index 2 yields
`[B, C, A]` (and persists it), and dragging index 2 to before the item at
index 0 yields `[C, A, B]`. -/
theorem completeDrag_is_remove_then_insert :
    (∀ (items : List Item) (src raw : Nat), src < items.length →
      (completeDrag items src (some raw)).1 =
        (if (if src < raw then raw - 1 else raw) = src then items
         else moveItem items src (if src < raw then raw - 1 else raw))) ∧
    (∀ (items : List Item) (src : Nat), src < items.length →
      (completeDrag items src none).1 =
        (if items.length - 1 = src then items
         else moveItem items src (items.length - 1))) ∧
    completeDrag [itemA, itemB, itemC] 0 none =
      ([itemB, itemC, itemA], [[itemB, itemC, itemA]]) ∧
    completeDrag [itemA, itemB, itemC] 2 (some 0) =
      ([itemC, itemA, itemB], [[itemC, itemA, itemB]]) := by
  refine ⟨?_, ?_, by decide, by decide⟩
  · intro items src raw hsrc
    obtain ⟨a, hget⟩ : ∃ a, items[src]? = some a :=
      ⟨items[src], List.getElem?_eq_getElem hsrc⟩
    simp only [completeDrag, computeNewIndex, moveItem, hget]
    by_cases hlt : src < raw
    · rw [if_pos hlt, if_pos hlt]
      by_cases heq : raw - 1 = src
      · have h1 : ¬ ((raw : Int) - 1 ≠ (src : Int) ∧ 0 ≤ (raw : Int) - 1) := by
          push_neg
          intro hne
          exact absurd (by omega : (raw : Int) - 1 = (src : Int)) hne
        rw [if_neg h1, if_pos heq]
      · have h1 : (raw : Int) - 1 ≠ (src : Int) ∧ 0 ≤ (raw : Int) - 1 := by
          constructor <;> omega
        rw [if_pos h1, if_neg heq]
        have h2 : ((raw : Int) - 1).toNat = raw - 1 := by omega
        rw [h2]
    · rw [if_neg hlt, if_neg hlt]
      by_cases heq : raw = src
      · have h1 : ¬ ((raw : Int) ≠ (src : Int) ∧ 0 ≤ (raw : Int)) := by
          push_neg
          intro hne
          exact absurd (by omega : (raw : Int) = (src : Int)) hne
        rw [if_neg h1, if_pos heq]
      · have h1 : (raw : Int) ≠ (src : Int) ∧ 0 ≤ (raw : Int) := by
          constructor <;> omega
        rw [if_pos h1, if_neg heq]
        have h2 : ((raw : Int)).toNat = raw := by omega
        rw [h2]
  · intro items src hsrc
    obtain ⟨a, hget⟩ : ∃ a, items[src]? = some a :=
      ⟨items[src], List.getElem?_eq_getElem hsrc⟩
    simp only [completeDrag, computeNewIndex, moveItem, hget]
    by_cases heq : items.length - 1 = src
    · have h1 : ¬ (((items.length : Int)) - 1 ≠ (src : Int) ∧
          0 ≤ ((items.length : Int)) - 1) := by
        push_neg
        intro hne
        exact absurd (by omega : ((items.length : Int)) - 1 = (src : Int)) hne
      rw [if_neg h1, if_pos heq]
    · have h1 : ((items.length : Int)) - 1 ≠ (src : Int) ∧
          0 ≤ ((items.length : Int)) - 1 := by
        constructor <;> omega
      rw [if_pos h1, if_neg heq]
      have h2 : (((items.length : Int)) - 1).toNat = items.length - 1 := by
        omega
      rw [h2]

/-- Witness for C1: dragging index 0 of a three-item list to before the
item at raw index 2 moves it to adjusted position 1. -/
theorem completeDrag_is_remove_then_insert_witness :
    (completeDrag [itemA, itemB, itemC] 0 (some 2)).1 =
      (if (if 0 < 2 then 2 - 1 else 2) = 0 then [itemA, itemB, itemC]
       else moveItem [itemA, itemB, itemC] 0 (if 0 < 2 then 2 - 1 else 2)) :=
  completeDrag_is_remove_then_insert.1 [itemA, itemB, itemC] 0 2 (by decide)

/-- C7: `getDragAfterElement` returns no element exactly when no row
(the dragged one is excluded from the input) has its midpoint strictly
below the pointer — the insertion point is then the end of the list —
and any returned row is such a candidate whose offset `y - rowMid` is
greatest (least negative) among all candidates. -/
theorem getDragAfterElement_selects_nearest_below (y : ℚ) (rows : List Row) :
    (getDragAfterElement y rows = none ↔ ∀ r ∈ rows, ¬ y < rowMid r) ∧
    (∀ r, getDragAfterElement y rows = some r →
      r ∈ rows ∧ y < rowMid r ∧
      ∀ r2 ∈ rows, y < rowMid r2 → y - rowMid r2 ≤ y - rowMid r) := by
  constructor
  · rw [getDragAfterElement, Option.map_eq_none', gdae_foldl_none_iff]
    simp only [offsetAt_neg_iff, true_and]
  · intro r hr
    rw [getDragAfterElement, Option.map_eq_some'] at hr
    obtain ⟨⟨o, c⟩, hfold, rfl⟩ := hr
    dsimp only
    rcases gdae_foldl_origin y rows none o c hfold with h1 | h1
    · exact Option.noConfusion h1
    · obtain ⟨hmem, ho, hneg⟩ := h1
      obtain ⟨-, hbound⟩ := gdae_foldl_bound y rows none o c hfold
      have hro : o = y - rowMid c := by rw [ho, offsetAt_eq]
      refine ⟨hmem, (offsetAt_neg_iff y c).mp (ho ▸ hneg), ?_⟩
      intro r2 hr2 hlt2
      have hb := hbound r2 hr2 ((offsetAt_neg_iff y r2).mpr hlt2)
      rw [offsetAt_eq] at hb
      linarith [hb, hro.le]

/-- Witness for C7: with the pointer at y = 7 between two stacked
10-pixel rows, the returned row is the lower one (midpoint 15), a
candidate whose offset dominates every other candidate. -/
theorem getDragAfterElement_selects_nearest_below_witness :
    (⟨10, 10⟩ : Row) ∈ [(⟨0, 10⟩ : Row), ⟨10, 10⟩] ∧
    (7 : ℚ) < rowMid ⟨10, 10⟩ ∧
    ∀ r2 ∈ [(⟨0, 10⟩ : Row), ⟨10, 10⟩], (7 : ℚ) < rowMid r2 →
      (7 : ℚ) - rowMid r2 ≤ 7 - rowMid ⟨10, 10⟩ :=
  (getDragAfterElement_selects_nearest_below 7 [⟨0, 10⟩, ⟨10, 10⟩]).2
    ⟨10, 10⟩ (by norm_num [getDragAfterElement, gdaeStep, offsetAt])

end Ako
